import Mathlib

/-!
# Verification of the dmrgo map/reduce engine

Shallow embedding of the dmrgo map/reduce driver (`mr.go`-style file, here
`src/unnamed/part_000`) and of `proto.go`, with proofs of the spec's claims.

Go strings are byte sequences; we model them as `List Nat` with each byte
below 256.  Relevant byte values: tab = 9, newline = 10, comma = 44,
percent = 37, plus = 43, space = 32.
-/

/-- Structure `KeyValue` is the primary record type of the engine (source lines 20-24),
with Go strings modelled as byte lists. -/
structure KeyValue where
  ReduceKey : List Nat
  SortKey : List Nat
  Value : List Nat
  deriving DecidableEq, Repr

/-- Model of `bufio.Reader.ReadString(delim)` as used by the line readers:
reads up to and including the first occurrence of `delim`, returning the
consumed prefix (delimiter included) and the remaining stream; `none` when
the stream is exhausted before the delimiter is found (the readers treat
the accompanying data as discarded, since they return on a non-nil error). -/
def readString (d : Nat) : List Nat → Option (List Nat × List Nat)
  | [] => none
  | c :: rest =>
    if c = d then some ([c], rest)
    else
      match readString d rest with
      | none => none
      | some (k, r) => some (c :: k, r)

/-- Model of `strings.TrimRight(s, cutset)` for a one-byte cutset: removes
all trailing occurrences of `d`. -/
def trimRight (d : Nat) (s : List Nat) : List Nat :=
  (s.reverse.dropWhile (fun c => c == d)).reverse

/-- Model of `strings.SplitN(k, ",", 2)` (source line 44): the part before
the first `sep`, and `some` of the part after it when `sep` occurs. -/
def splitN2 (sep : Nat) : List Nat → List Nat × Option (List Nat)
  | [] => ([], none)
  | c :: rest =>
    if c = sep then ([], some rest)
    else
      let p := splitN2 sep rest
      (c :: p.1, p.2)

/-- Byte classes that `url.QueryEscape` leaves unescaped: ASCII
alphanumerics. -/
def isAlphaNumByte (b : Nat) : Bool :=
  (48 ≤ b && b ≤ 57) || (65 ≤ b && b ≤ 90) || (97 ≤ b && b ≤ 122)

/-- Model of Go `net/url`'s `shouldEscape(c, encodeQueryComponent)`:
everything but alphanumerics and `-` `.` `_` `~` is escaped (space is
special-cased to `+` before this test). -/
def shouldEscape (b : Nat) : Bool :=
  !(isAlphaNumByte b || b == 45 || b == 46 || b == 95 || b == 126)

/-- Upper-case hex digit of a nibble, as in `net/url`'s `"0123456789ABCDEF"`. -/
def hexDigit (n : Nat) : Nat :=
  if n < 10 then 48 + n else 55 + n

/-- Is the byte an ASCII hex digit (`ishex` in `net/url`)? -/
def isHexDigit (c : Nat) : Bool :=
  (48 ≤ c && c ≤ 57) || (65 ≤ c && c ≤ 70) || (97 ≤ c && c ≤ 102)

/-- Numeric value of an ASCII hex digit (`unhex` in `net/url`). -/
def hexVal (c : Nat) : Nat :=
  if 48 ≤ c && c ≤ 57 then c - 48
  else if 65 ≤ c && c ≤ 70 then c - 55
  else if 97 ≤ c && c ≤ 102 then c - 87
  else 0

/-- Escaping of a single byte under `url.QueryEscape`: space becomes `+`,
escapable bytes become `%XX`, the rest pass through. -/
def escByte (b : Nat) : List Nat :=
  if b = 32 then [43]
  else if shouldEscape b then [37, hexDigit (b / 16), hexDigit (b % 16)]
  else [b]

/-- Model of Go `url.QueryEscape`, byte by byte. -/
def queryEscape : List Nat → List Nat
  | [] => []
  | b :: rest => escByte b ++ queryEscape rest

/-- Model of Go `url.QueryUnescape` (query mode): `%XX` decodes to a byte
(error when not followed by two hex digits), `+` decodes to space, all
other bytes pass through. -/
def queryUnescape : List Nat → Option (List Nat)
  | [] => some []
  | c :: rest =>
    if c = 37 then
      match rest with
      | a :: b :: rest2 =>
        if isHexDigit a && isHexDigit b then
          (queryUnescape rest2).map (fun t => (hexVal a * 16 + hexVal b) :: t)
        else none
      | _ => none
    else if c = 43 then (queryUnescape rest).map (fun t => 32 :: t)
    else (queryUnescape rest).map (fun t => c :: t)

/-- Function `readLineValue` (source lines 26-34): read one newline-terminated line,
strip the terminator, and wrap it as an unkeyed `KeyValue`.  Returns `none`
on a read error (which the map driver treats as end of stream); the data
read before the error is discarded, exactly as in the source. -/
def readLineValue (br : List Nat) : Option (KeyValue × List Nat) :=
  match readString 10 br with
  | none => none
  | some (s, rest) => some (⟨[], [], trimRight 10 s⟩, rest)

/-- Function `readLineKeyValue` (source lines 36-68): read through the first tab,
strip it, split the key field at the first comma, percent-decode reduce key
and optional sort key, then read the newline-terminated value. -/
def readLineKeyValue (br : List Nat) : Option (KeyValue × List Nat) :=
  match readString 9 br with
  | none => none
  | some (k0, br1) =>
    let k := trimRight 9 k0
    let keys := splitN2 44 k
    match queryUnescape keys.1 with
    | none => none
    | some reduceKey =>
      let sortKeyResult := match keys.2 with
        | some k1 => queryUnescape k1
        | none => some []
      match sortKeyResult with
      | none => none
      | some sortKey =>
        match readString 10 br1 with
        | none => none
        | some (v0, br2) => some (⟨reduceKey, sortKey, trimRight 10 v0⟩, br2)

/-- Modelled from the spec: `encodeKeyValueLine(reduceKey, sortKey, value)`
is the wire format written by the partitioned Emitter, whose concrete code
is not part of this repository snapshot.  Spec §4.1: percent-encode
reduceKey and sortKey, join with comma (omit comma and sortKey when sortKey
is empty), append tab, the verbatim value, and newline. -/
def encodeKeyValueLine (reduceKey sortKey value : List Nat) : List Nat :=
  if sortKey = [] then
    queryEscape reduceKey ++ [9] ++ value ++ [10]
  else
    queryEscape reduceKey ++ [44] ++ queryEscape sortKey ++ [9] ++ value ++ [10]

/-! ## The reduce driver (source lines 290-327)

The driver's observable actions are modelled as a trace of events, in the
order the `reducer` loop performs them:

* `spawn k s` — the `go func(){ mrjob.Reduce(k, s, values, emitter); ... }()`
  statement (lines 315-319) starting a group's Reduce invocation;
* `push v` — `values <- mkv.Value` (line 322);
* `closeValues` — `close(values)` on a non-nil channel (line 309 or 325);
* `waitDone` — `<-done` (line 310 or 326), i.e. the driver blocks until the
  in-flight Reduce invocation has finished;
* `panicNilClose` — the run-time panic raised by `close(values)` at line 325
  when `values` is still the nil channel (no record was ever read).
-/

/-- One observable action of the reduce driver. -/
inductive REvent where
  | spawn (reduceKey sortKey : List Nat)
  | push (v : List Nat)
  | closeValues
  | waitDone
  | panicNilClose
  deriving DecidableEq, Repr

/-- The loop of `reducer` (source lines 300-327) over the records it will
successfully read, carrying the `currentReduceKey` cursor and the
`isFirstRun` flag.  When the records run out the loop breaks and the
trailing `close(values); <-done` executes — a panic if no group was ever
started. -/
def reducerLoop : List KeyValue → List Nat → Bool → List REvent
  | [], _, isFirstRun =>
    if isFirstRun then [.panicNilClose] else [.closeValues, .waitDone]
  | mkv :: rest, currentReduceKey, isFirstRun =>
    if currentReduceKey ≠ mkv.ReduceKey ∨ isFirstRun = true then
      (if isFirstRun then [] else [.closeValues, .waitDone]) ++
        .spawn mkv.ReduceKey mkv.SortKey :: .push mkv.Value ::
          reducerLoop rest mkv.ReduceKey false
    else
      .push mkv.Value :: reducerLoop rest currentReduceKey isFirstRun

/-- The full event trace of `reducer` over a record stream: the cursor
starts as the empty string and `isFirstRun` as `true` (lines 294-298). -/
def reducerTrace (records : List KeyValue) : List REvent :=
  reducerLoop records [] true

/-- One Reduce invocation as observed through the trace: the reduce key and
sort key passed to `mrjob.Reduce`, and the values sent into that
invocation's `values` channel, in channel (FIFO) order. -/
abbrev Invocation := List Nat × List Nat × List (List Nat)

/-- Replay a trace, accumulating the current invocation (the most recently
spawned Reduce call and the values pushed into its channel so far) and
emitting finished invocations in order. -/
def invocationsAux : List REvent → Option Invocation → List Invocation
  | [], none => []
  | [], some g => [g]
  | .spawn k s :: r, none => invocationsAux r (some (k, s, []))
  | .spawn k s :: r, some g => g :: invocationsAux r (some (k, s, []))
  | .push v :: r, some (k, s, vs) => invocationsAux r (some (k, s, vs ++ [v]))
  | .push _ :: r, none => invocationsAux r none
  | .closeValues :: r, acc => invocationsAux r acc
  | .waitDone :: r, acc => invocationsAux r acc
  | .panicNilClose :: r, acc => invocationsAux r acc

/-- The Reduce invocations of a trace, in spawn order. -/
def invocations (es : List REvent) : List Invocation :=
  invocationsAux es none

/-- Reference description of the grouping the spec asks for: consecutive
records with equal reduce keys form a group; each group yields one
invocation carrying the group's first record's reduce and sort keys and
the group's values in input order.  (Spec-side definition, to be compared
with the trace the driver actually produces.) -/
def groupRunsAux : List KeyValue → Invocation → List Invocation
  | [], g => [g]
  | kv :: rest, (k, s, vs) =>
    if kv.ReduceKey = k then groupRunsAux rest (k, s, vs ++ [kv.Value])
    else (k, s, vs) :: groupRunsAux rest (kv.ReduceKey, kv.SortKey, [kv.Value])

/-- Consecutive grouping of a record stream (spec-side). -/
def groupRuns : List KeyValue → List Invocation
  | [] => []
  | kv :: rest => groupRunsAux rest (kv.ReduceKey, kv.SortKey, [kv.Value])

/-- The first record of each maximal consecutive same-reduceKey run
(spec-side; used to state which sort key each group hands to Reduce). -/
def runFirstsAux : List KeyValue → List Nat → List KeyValue
  | [], _ => []
  | kv :: rest, cur =>
    if kv.ReduceKey = cur then runFirstsAux rest cur
    else kv :: runFirstsAux rest kv.ReduceKey

/-- First records of the consecutive runs of a record stream. -/
def runFirsts : List KeyValue → List KeyValue
  | [] => []
  | kv :: rest => kv :: runFirstsAux rest kv.ReduceKey

/-- Driver-side concurrency protocol automaton.  State: `active` — a Reduce
invocation has been spawned and not yet waited for; `opn` — the current
`values` channel is open.  A trace is accepted when every `spawn` happens
with no invocation in flight (the previous group was closed out and waited
for), every `push` goes into an open channel, every `closeValues` closes an
open channel, and every `waitDone` happens after the channel was closed. -/
def protocolOK : List REvent → Bool → Bool → Bool
  | [], _, _ => true
  | .spawn _ _ :: r, active, opn => !active && !opn && protocolOK r true true
  | .push _ :: r, active, opn => opn && protocolOK r active opn
  | .closeValues :: r, active, opn => opn && protocolOK r active false
  | .waitDone :: r, active, opn => active && !opn && protocolOK r false false
  | .panicNilClose :: r, active, opn => protocolOK r active opn

/-! ## Byte-level drivers

`mapper` and the record-reading loop of `reducer` consume the stream one
line at a time and stop at the first read error.  Reading a line consumes
at least one byte, which justifies the recursion. -/

/-- A successful `readString` consumes at least one byte. -/
theorem readString_rest_length {d : Nat} :
    ∀ {s k r : List Nat}, readString d s = some (k, r) → r.length < s.length := by
  intro s
  induction s with
  | nil => intro k r h; simp [readString] at h
  | cons c rest ih =>
    intro k r h
    rw [readString] at h
    by_cases hc : c = d
    · simp [hc] at h
      simp [h.2.symm]
    · simp only [if_neg hc] at h
      cases hr : readString d rest with
      | none => rw [hr] at h; simp at h
      | some p =>
        rw [hr] at h
        obtain ⟨k', r'⟩ := p
        simp at h
        have := ih hr
        simp [← h.2]
        omega

/-- A successful `readLineValue` consumes at least one byte. -/
theorem readLineValue_rest_length {br : List Nat} {kv : KeyValue} {r : List Nat}
    (h : readLineValue br = some (kv, r)) : r.length < br.length := by
  rw [readLineValue] at h
  cases hr : readString 10 br with
  | none => rw [hr] at h; simp at h
  | some p =>
    obtain ⟨s, rest⟩ := p
    rw [hr] at h
    simp at h
    rw [← h.2]
    exact readString_rest_length hr

/-- A successful `readLineKeyValue` consumes at least one byte. -/
theorem readLineKeyValue_rest_length {br : List Nat} {kv : KeyValue} {r : List Nat}
    (h : readLineKeyValue br = some (kv, r)) : r.length < br.length := by
  rw [readLineKeyValue] at h
  cases hr1 : readString 9 br with
  | none => rw [hr1] at h; simp at h
  | some p1 =>
    obtain ⟨k0, br1⟩ := p1
    rw [hr1] at h
    simp only [] at h
    cases hq1 : queryUnescape (splitN2 44 (trimRight 9 k0)).1 with
    | none => rw [hq1] at h; simp at h
    | some reduceKey =>
      rw [hq1] at h
      cases hq2 : (match (splitN2 44 (trimRight 9 k0)).2 with
        | some k1 => queryUnescape k1
        | none => some []) with
      | none => rw [hq2] at h; simp at h
      | some sortKey =>
        rw [hq2] at h
        cases hr2 : readString 10 br1 with
        | none => rw [hr2] at h; simp at h
        | some p2 =>
          obtain ⟨v0, br2⟩ := p2
          rw [hr2] at h
          simp at h
          have h1 := readString_rest_length hr1
          have h2 := readString_rest_length hr2
          rw [← h.2]
          omega

/-- The loop of `mapper` (source lines 268-280): the values handed to
`mrjob.Map` (always with an empty key), one per successfully read line,
stopping at the first read error. -/
def mapper (br : List Nat) : List (List Nat) :=
  match h : readLineValue br with
  | none => []
  | some (kv, rest) => kv.Value :: mapper rest
termination_by br.length
decreasing_by exact readLineValue_rest_length h

/-- The records the `reducer` loop (source lines 300-305) successfully
reads from the stream before breaking on the first read error. -/
def parseRecords (br : List Nat) : List KeyValue :=
  match h : readLineKeyValue br with
  | none => []
  | some (kv, rest) => kv :: parseRecords rest
termination_by br.length
decreasing_by exact readLineKeyValue_rest_length h

/-- The event trace of `reducer` run over a raw byte stream. -/
def reducerEvents (br : List Nat) : List REvent :=
  reducerTrace (parseRecords br)

/-! ## `Main` mode selection (source lines 232-264) -/

/-- What `Main` does, as a function of the three mode flags.  `configError`
carries the message printed before `os.Exit(1)`. -/
inductive MainAction where
  | runMapReduce
  | configError (message : String)
  | runMap
  | runReduce
  deriving DecidableEq, Repr

/-- The mode dispatch of `Main`: the full pipeline runs first when its flag
is set; otherwise conflicting or missing map/reduce flags are a fatal
configuration error; otherwise the single selected filter runs. -/
def Main (optDoMapReduce optDoMap optDoReduce : Bool) : MainAction :=
  if optDoMapReduce then .runMapReduce
  else if optDoMap && optDoReduce then
    .configError "can either map or reduce, not both. (Did  you mean --mapreduce ?)"
  else if !optDoMap && !optDoReduce then
    .configError "neither map nor reduce nor secondary key reduce called"
  else if optDoMap then .runMap
  else .runReduce

/-- Does the action report a configuration error (print and exit 1)? -/
def isConfigError : MainAction → Bool
  | .configError _ => true
  | _ => false

/-! ## A mapper worker of the full pipeline (source lines 140-160) -/

/-- A work item of the mapper pool: `(index, fname)`. -/
structure mapperFile where
  index : Nat
  fname : String
  deriving DecidableEq, Repr

/-- Outcome of one mapper worker goroutine: which queued inputs it fully
processed (opened, mapped through a fresh partitioned emitter, flushed,
closed), whether it logged an open error to stderr, and whether it
executed `wg.Done()`. -/
structure WorkerOutcome where
  mapped : List mapperFile
  loggedOpenError : Bool
  signaledDone : Bool
  deriving DecidableEq, Repr

/-- The body of a mapper worker goroutine (source lines 142-159), with
`opens` an oracle for whether `os.Open` succeeds on a file name: each input
pulled from the queue is opened and mapped; on an open error the worker
logs and returns from the goroutine, skipping both the rest of the queue
and the `wg.Done()` that follows the loop. -/
def mapperWorker (opens : String → Bool) : List mapperFile → WorkerOutcome
  | [] => ⟨[], false, true⟩
  | input :: rest =>
    if opens input.fname then
      let r := mapperWorker opens rest
      ⟨input :: r.mapped, r.loggedOpenError, r.signaledDone⟩
    else
      ⟨[], true, false⟩

/-! ## `TSVProtocol.MarshalKV` (proto.go lines 69-102) -/

/-- The Go values `TSVProtocol` handles through reflection: the primitives
of `isPrimitive` (floats excluded from the model), structs of primitives,
and slices of primitives.  Nested composites fall through to
`primitiveToString`'s default branch, as in the source. -/
inductive GoVal where
  | vbool (b : Bool)
  | vint (i : Int)
  | vuint (n : Nat)
  | vstr (s : String)
  | vstruct (fields : List GoVal)
  | vslice (elems : List GoVal)
  deriving Repr

/-- The `reflect.Kind` numbering of the modelled values (Bool=1, Int=2, Uint=7,
Slice=23, String=24, Struct=25). -/
def goKind : GoVal → Nat
  | .vbool _ => 1
  | .vint _ => 2
  | .vuint _ => 7
  | .vslice _ => 23
  | .vstr _ => 24
  | .vstruct _ => 25

/-- Function `isPrimitive` (proto.go lines 144-156) on the modelled kinds. -/
def isPrimitive (v : GoVal) : Bool :=
  match v with
  | .vbool _ => true
  | .vint _ => true
  | .vuint _ => true
  | .vstr _ => true
  | _ => false

/-- Function `primitiveToString` (proto.go lines 158-181): bools print as `1`/`0`,
integers in base 10, strings verbatim; anything else hits the
`(unknown type ...)` default, where the kind number is converted to a
rune as Go's `string(v.Kind())` does. -/
def primitiveToString (v : GoVal) : String :=
  match v with
  | .vbool b => if b then "1" else "0"
  | .vint i => toString i
  | .vuint n => toString n
  | .vstr s => s
  | v => "(unknown type " ++ String.mk [Char.ofNat (goKind v)] ++ ")"

/-- Struct field list of a value (empty for non-structs). -/
def structFields : GoVal → List GoVal
  | .vstruct fields => fields
  | _ => []

/-- Slice elements of a value (empty for non-slices). -/
def sliceElems : GoVal → List GoVal
  | .vslice elems => elems
  | _ => []

/-- The `vs` slice built by `MarshalKV` from its `value` argument
(proto.go lines 71-91): struct kinds first, then primitives, then
array/slice kinds. -/
def marshalVals (value : GoVal) : List String :=
  if goKind value = 25 then (structFields value).map primitiveToString
  else if isPrimitive value then [primitiveToString value]
  else if goKind value = 17 ∨ goKind value = 23 then
    (sliceElems value).map primitiveToString
  else []

/-- The `KeyValue` produced by `TSVProtocol.MarshalKV`, with string
fields. -/
structure KeyValueStr where
  ReduceKey : String
  SortKey : String
  Value : String
  deriving DecidableEq, Repr

/-- Function `TSVProtocol.MarshalKV` (proto.go lines 69-102).  Note that the source
computes `sortKeyVal := reflect.ValueOf(reduceKey)` at line 98, so the
returned SortKey is the string form of the `reduceKey` argument and the
`sortKey` argument is never read. -/
def MarshalKV (reduceKey sortKey value : GoVal) : KeyValueStr :=
  let vals := String.intercalate "\t" (marshalVals value)
  let r := primitiveToString reduceKey
  let s := primitiveToString reduceKey
  ⟨r, s, vals⟩

/-! ## Claims -/

/-- Claim C9: For every reduceKey, sortKey and value argument,
`TSVProtocol.MarshalKV` returns a `KeyValue` whose SortKey field is the
string form of the reduceKey argument, and the sortKey argument never
influences the result (proto.go line 98 reads `reduceKey`). -/
theorem MarshalKV_sortKey_is_reduceKey (reduceKey sortKey value : GoVal) :
    (MarshalKV reduceKey sortKey value).SortKey = primitiveToString reduceKey ∧
      ∀ sortKey2 : GoVal,
        MarshalKV reduceKey sortKey value = MarshalKV reduceKey sortKey2 value :=
  ⟨rfl, fun _ => rfl⟩

/-- Claim C6, counterexample: With the full-pipeline flag set together with
both the mapper and the reducer flags, `Main` does not report a
configuration error: it runs the full pipeline. -/
theorem Main_all_three_flags_no_error :
    Main true true true = MainAction.runMapReduce ∧
      isConfigError (Main true true true) = false :=
  ⟨rfl, rfl⟩

/-- Claim C6, amended: When the full-pipeline flag is off, `Main` reports a
configuration error (printed message, exit 1) exactly when both the mapper
and reducer flags are selected or neither is; when the full-pipeline flag
is on, `Main` runs the full pipeline regardless of the other two flags. -/
theorem Main_mode_selection (optDoMap optDoReduce : Bool) :
    (isConfigError (Main false optDoMap optDoReduce) = true ↔
        (optDoMap = true ∧ optDoReduce = true) ∨
          (optDoMap = false ∧ optDoReduce = false)) ∧
      Main true optDoMap optDoReduce = MainAction.runMapReduce := by
  cases optDoMap <;> cases optDoReduce <;> simp [Main, isConfigError]

/-- The function `parseRecords` of the empty stream is empty. -/
theorem parseRecords_nil : parseRecords [] = [] := by
  rw [parseRecords]
  simp [readLineKeyValue, readString]

/-- Claim C5: Over the empty input stream the reduce driver does not
terminate normally: `reducer` reaches `close(values)` with `values` still
nil and panics (close of nil channel), instead of returning without
invoking Reduce as the spec says.  The trace is exactly the panic event. -/
theorem reducer_empty_input_panics :
    reducerEvents [] = [REvent.panicNilClose] := by
  rw [reducerEvents, parseRecords_nil]
  rfl

/-- Claim C8: When a mapper worker's queue contains a file that fails to
open (after a prefix of openable files), the worker logs the error and
abandons everything from the failing file on: it maps only the prefix,
and — as the spec's open question observes — returns without executing
`wg.Done()`, so the phase barrier is never signaled for this worker. -/
theorem mapperWorker_open_failure (opens : String → Bool)
    (pre : List mapperFile) (f : mapperFile) (post : List mapperFile)
    (hpre : ∀ g ∈ pre, opens g.fname = true) (hf : opens f.fname = false) :
    mapperWorker opens (pre ++ f :: post) =
      ⟨pre, true, false⟩ := by
  induction pre with
  | nil => simp [mapperWorker, hf]
  | cons g rest ih =>
    have hg : opens g.fname = true := hpre g (by simp)
    have := ih (fun x hx => hpre x (by simp [hx]))
    simp [mapperWorker, hg, this]

/-- Witness for C8 at a concrete queue and oracle. -/
theorem mapperWorker_open_failure_witness :
    (∀ g ∈ [mapperFile.mk 0 "in0"], (fun s => s ≠ "bad" : String → Bool) g.fname = true) ∧
      (fun s => s ≠ "bad" : String → Bool) (mapperFile.mk 1 "bad").fname = false ∧
      mapperWorker (fun s => s ≠ "bad")
          ([mapperFile.mk 0 "in0"] ++ mapperFile.mk 1 "bad" :: [mapperFile.mk 2 "in2"]) =
        ⟨[mapperFile.mk 0 "in0"], true, false⟩ :=
  ⟨by decide, by decide,
    mapperWorker_open_failure (fun s => s ≠ "bad")
      [mapperFile.mk 0 "in0"] (mapperFile.mk 1 "bad") [mapperFile.mk 2 "in2"]
      (by decide) (by decide)⟩

/-- Protocol invariant of the reduce loop: entered with a Reduce invocation
in flight and its channel open, `reducerLoop` with `isFirstRun = false`
follows the close-wait-spawn protocol. -/
theorem protocolOK_reducerLoop (rs : List KeyValue) :
    ∀ cur : List Nat, protocolOK (reducerLoop rs cur false) true true = true := by
  induction rs with
  | nil => intro cur; simp [reducerLoop, protocolOK]
  | cons mkv rest ih =>
    intro cur
    by_cases hk : cur = mkv.ReduceKey
    · simp [reducerLoop, hk, protocolOK, ih]
    · simp [reducerLoop, hk, protocolOK, ih]

/-- Claim C4: In every execution of the reduce driver at most one Reduce
invocation is in flight: the trace satisfies the driver protocol — a
`spawn` only happens with no invocation active (so the driver has already
closed the previous group's channel and waited on its `done`), every value
push goes into the open channel of the active invocation (production
overlapping that group's own consumption), and `waitDone` follows the
close of the channel.  Started from the idle state, the whole trace is
accepted. -/
theorem reducer_groups_sequential (records : List KeyValue) :
    protocolOK (reducerTrace records) false false = true := by
  cases records with
  | nil => simp [reducerTrace, reducerLoop, protocolOK]
  | cons mkv rest =>
    simp [reducerTrace, reducerLoop, protocolOK, protocolOK_reducerLoop]

/-- With a group in flight (state `(k, s, vs)`), replaying the rest of the
loop's trace yields exactly the consecutive grouping continued from that
state. -/
theorem invocationsAux_reducerLoop (rs : List KeyValue) :
    ∀ (k s : List Nat) (vs : List (List Nat)),
      invocationsAux (reducerLoop rs k false) (some (k, s, vs)) =
        groupRunsAux rs (k, s, vs) := by
  induction rs with
  | nil => intro k s vs; simp [reducerLoop, invocationsAux, groupRunsAux]
  | cons kv rest ih =>
    intro k s vs
    by_cases hk : kv.ReduceKey = k
    · rw [reducerLoop]
      simp only [hk, groupRunsAux, if_pos rfl]
      rw [if_neg (by simp [hk])]
      simp [invocationsAux, ih]
    · rw [reducerLoop]
      rw [if_pos (Or.inl (by simp [Ne, hk]; exact fun hh => hk hh.symm))]
      simp only [if_neg (by simp : ¬(false = true))]
      simp [invocationsAux, ih, groupRunsAux, hk]

/-- The Reduce invocations of the driver's trace are exactly the
consecutive same-reduceKey groups of the record stream, each carrying the
group's first record's reduce key and sort key and the group's values in
input order. -/
theorem invocations_reducerTrace (records : List KeyValue) :
    invocations (reducerTrace records) = groupRuns records := by
  cases records with
  | nil => simp [reducerTrace, reducerLoop, invocations, invocationsAux, groupRuns]
  | cons kv rest =>
    rw [reducerTrace, reducerLoop, if_pos (Or.inr rfl)]
    simp only [if_pos rfl, List.nil_append, invocations, invocationsAux]
    rw [invocationsAux_reducerLoop]
    rfl

/-- Claim C1: Over any pre-sorted record stream whose reduce keys are
`"a","a","b","b","b","c"` (bytes 97/98/99), the reduce driver invokes
Reduce exactly 3 times, in group order a, b, c, with value-sequence
lengths 2, 3, 1. -/
theorem reducer_grouping_aabbbc (records : List KeyValue)
    (h : records.map (fun r => r.ReduceKey) =
      [[97], [97], [98], [98], [98], [99]]) :
    (invocations (reducerTrace records)).map (fun g => g.1) =
        [[97], [98], [99]] ∧
      (invocations (reducerTrace records)).map (fun g => g.2.2.length) =
        [2, 3, 1] := by
  rw [invocations_reducerTrace]
  rcases records with _ | ⟨r1, _ | ⟨r2, _ | ⟨r3, _ | ⟨r4, _ | ⟨r5, _ | ⟨r6, _ | ⟨r7, rest⟩⟩⟩⟩⟩⟩⟩ <;>
    simp at h
  obtain ⟨h1, h2, h3, h4, h5, h6⟩ := h
  simp [groupRuns, groupRunsAux, h1, h2, h3, h4, h5, h6]

/-- Witness for C1 at a concrete sorted stream. -/
theorem reducer_grouping_aabbbc_witness :
    ([⟨[97], [], [49]⟩, ⟨[97], [], [50]⟩, ⟨[98], [], [51]⟩,
        ⟨[98], [], [52]⟩, ⟨[98], [], [53]⟩, ⟨[99], [], [54]⟩] :
          List KeyValue).map (fun r => r.ReduceKey) =
        [[97], [97], [98], [98], [98], [99]] ∧
      ((invocations (reducerTrace
            [⟨[97], [], [49]⟩, ⟨[97], [], [50]⟩, ⟨[98], [], [51]⟩,
              ⟨[98], [], [52]⟩, ⟨[98], [], [53]⟩, ⟨[99], [], [54]⟩])).map
          (fun g => g.1) = [[97], [98], [99]] ∧
        (invocations (reducerTrace
            [⟨[97], [], [49]⟩, ⟨[97], [], [50]⟩, ⟨[98], [], [51]⟩,
              ⟨[98], [], [52]⟩, ⟨[98], [], [53]⟩, ⟨[99], [], [54]⟩])).map
          (fun g => g.2.2.length) = [2, 3, 1]) :=
  ⟨by decide, reducer_grouping_aabbbc _ (by decide)⟩

/-- Flattening the grouped values recovers all record values in order,
starting from any in-flight accumulator. -/
theorem groupRunsAux_join (rs : List KeyValue) :
    ∀ (k s : List Nat) (vs : List (List Nat)),
      ((groupRunsAux rs (k, s, vs)).map (fun g => g.2.2)).flatten =
        vs ++ rs.map (fun r => r.Value) := by
  induction rs with
  | nil => intro k s vs; simp [groupRunsAux]
  | cons kv rest ih =>
    intro k s vs
    by_cases hk : kv.ReduceKey = k
    · simp [groupRunsAux, hk, ih]
    · simp [groupRunsAux, hk, ih]

/-- Claim C3: Within each reduceKey group, values are delivered to
`job.Reduce` exactly in input order: the driver's invocations coincide with
the consecutive grouping of the records (each value lands in its own
group's stream, in order), and flattening the delivered value sequences
gives back exactly the record values — nothing is dropped or duplicated. -/
theorem reducer_value_streams_faithful (records : List KeyValue) :
    invocations (reducerTrace records) = groupRuns records ∧
      ((invocations (reducerTrace records)).map (fun g => g.2.2)).flatten =
        records.map (fun r => r.Value) := by
  refine ⟨invocations_reducerTrace records, ?_⟩
  rw [invocations_reducerTrace]
  cases records with
  | nil => simp [groupRuns]
  | cons kv rest => simp [groupRuns, groupRunsAux_join]

/-- The reduce key and sort key of each group are those of the group's
first record, starting from any in-flight accumulator. -/
theorem groupRunsAux_keys (rs : List KeyValue) :
    ∀ (k s : List Nat) (vs : List (List Nat)),
      (groupRunsAux rs (k, s, vs)).map (fun g => (g.1, g.2.1)) =
        (k, s) :: (runFirstsAux rs k).map (fun r => (r.ReduceKey, r.SortKey)) := by
  induction rs with
  | nil => intro k s vs; simp [groupRunsAux, runFirstsAux]
  | cons kv rest ih =>
    intro k s vs
    by_cases hk : kv.ReduceKey = k
    · simp [groupRunsAux, runFirstsAux, hk, ih]
    · simp [groupRunsAux, runFirstsAux, hk, ih]

/-- Claim C7: Reduce is invoked exactly once per distinct consecutive
reduceKey group, and the sort key passed to each invocation is the sort
key of the group's first record (captured at spawn time, not a later
record's). -/
theorem reducer_sortKey_of_first_record (records : List KeyValue) :
    (invocations (reducerTrace records)).map (fun g => (g.1, g.2.1)) =
        (runFirsts records).map (fun r => (r.ReduceKey, r.SortKey)) ∧
      (invocations (reducerTrace records)).length =
        (runFirsts records).length := by
  have hk : (invocations (reducerTrace records)).map (fun g => (g.1, g.2.1)) =
      (runFirsts records).map (fun r => (r.ReduceKey, r.SortKey)) := by
    rw [invocations_reducerTrace]
    cases records with
    | nil => simp [groupRuns, runFirsts]
    | cons kv rest => simp [groupRuns, runFirsts, groupRunsAux_keys]
  refine ⟨hk, ?_⟩
  have := congrArg List.length hk
  simpa using this

/-! ## Round-trip of the key-value line codec (C2) -/

/-- Unescape step: a percent escape consumes three bytes. -/
theorem queryUnescape_percent (a b : Nat) (rest : List Nat) :
    queryUnescape (37 :: a :: b :: rest) =
      if isHexDigit a && isHexDigit b then
        (queryUnescape rest).map (fun t => (hexVal a * 16 + hexVal b) :: t)
      else none := rfl

/-- Unescape step: a plus decodes to a space. -/
theorem queryUnescape_plus (rest : List Nat) :
    queryUnescape (43 :: rest) = (queryUnescape rest).map (fun t => 32 :: t) := by
  rw [queryUnescape.eq_def]
  norm_num

/-- Unescape step: any byte other than percent and plus passes through. -/
theorem queryUnescape_other (c : Nat) (rest : List Nat) (h37 : c ≠ 37)
    (h43 : c ≠ 43) :
    queryUnescape (c :: rest) = (queryUnescape rest).map (fun t => c :: t) := by
  rw [queryUnescape.eq_def]
  simp [h37, h43]

/-- Escape then unescape of one nibble. -/
theorem hexVal_hexDigit {n : Nat} (h : n < 16) :
    isHexDigit (hexDigit n) = true ∧ hexVal (hexDigit n) = n := by
  interval_cases n <;> exact ⟨by decide, by decide⟩

/-- A byte that `shouldEscape` passes through is alphanumeric or one of
`-` `.` `_` `~`. -/
theorem shouldEscape_false {b : Nat} (h : ¬shouldEscape b = true) :
    (48 ≤ b ∧ b ≤ 57) ∨ (65 ≤ b ∧ b ≤ 90) ∨ (97 ≤ b ∧ b ≤ 122) ∨
      b = 45 ∨ b = 46 ∨ b = 95 ∨ b = 126 := by
  simp only [shouldEscape, isAlphaNumByte, Bool.not_eq_true', Bool.not_eq_false,
    Bool.or_eq_true, Bool.and_eq_true, decide_eq_true_eq, beq_iff_eq] at h
  tauto

/-- Bytes produced by `queryEscape` are never tab, newline or comma (those
would have been percent-escaped). -/
theorem queryEscape_no_special {s : List Nat} {c : Nat}
    (h : c ∈ queryEscape s) : c ≠ 9 ∧ c ≠ 10 ∧ c ≠ 44 := by
  induction s with
  | nil => simp [queryEscape] at h
  | cons b rest ih =>
    simp only [queryEscape, List.mem_append] at h
    rcases h with h | h
    · rw [escByte] at h
      by_cases h32 : b = 32
      · rw [if_pos h32] at h
        simp at h
        omega
      · rw [if_neg h32] at h
        by_cases hesc : shouldEscape b = true
        · rw [if_pos hesc] at h
          simp at h
          rcases h with h | h | h
          · omega
          · rw [h, hexDigit]; by_cases hlt : b / 16 < 10 <;> simp [hlt] <;> omega
          · rw [h, hexDigit]; by_cases hlt : b % 16 < 10 <;> simp [hlt] <;> omega
        · rw [if_neg hesc] at h
          simp at h
          subst h
          have := shouldEscape_false hesc
          omega
    · exact ih h

/-- Unescaping one escaped byte peels it off the front. -/
theorem queryUnescape_escByte {b : Nat} (hb : b < 256) (t : List Nat) :
    queryUnescape (escByte b ++ t) =
      (queryUnescape t).map (fun l => b :: l) := by
  rw [escByte]
  by_cases h32 : b = 32
  · subst h32
    rw [if_pos rfl]
    simp [queryUnescape_plus]
  · rw [if_neg h32]
    by_cases hesc : shouldEscape b = true
    · rw [if_pos hesc]
      have hdiv : b / 16 < 16 := by omega
      have hmod : b % 16 < 16 := by omega
      have h1 := hexVal_hexDigit hdiv
      have h2 := hexVal_hexDigit hmod
      simp only [List.cons_append, List.nil_append, queryUnescape_percent,
        h1.1, h2.1, Bool.and_self, if_pos rfl, h1.2, h2.2]
      have hb' : b / 16 * 16 + b % 16 = b := by omega
      rw [hb']
      simp
    · rw [if_neg hesc]
      have hfacts : b ≠ 37 ∧ b ≠ 43 := by
        have := shouldEscape_false hesc
        omega
      simp [queryUnescape_other b t hfacts.1 hfacts.2]

/-- Round trip of the percent-coder itself: unescaping an escaped byte
string gives it back. -/
theorem queryUnescape_queryEscape {s : List Nat} (h : ∀ b ∈ s, b < 256) :
    queryUnescape (queryEscape s) = some s := by
  induction s with
  | nil => simp [queryEscape, queryUnescape]
  | cons b rest ih =>
    rw [queryEscape, queryUnescape_escByte (h b (by simp))]
    rw [ih (fun x hx => h x (by simp [hx]))]
    rfl

/-- Reading with `readString` on a stream starting with a delimiter-free prefix followed
by the delimiter consumes exactly that prefix plus the delimiter. -/
theorem readString_exact {d : Nat} {a : List Nat} (ha : d ∉ a) (t : List Nat) :
    readString d (a ++ d :: t) = some (a ++ [d], t) := by
  induction a with
  | nil => simp [readString]
  | cons c rest ih =>
    have hc : c ≠ d := by intro hcd; exact ha (by simp [hcd])
    rw [List.cons_append, readString, if_neg hc,
      ih (fun hm => ha (by simp [hm]))]
    rfl

/-- The function `dropWhile` steps over a leading matching element. -/
theorem dropWhile_cons_self (d : Nat) (l : List Nat) :
    (d :: l).dropWhile (fun c => c == d) = l.dropWhile (fun c => c == d) := by
  simp [List.dropWhile]

/-- The function `dropWhile` is the identity when no element matches. -/
theorem dropWhile_beq_eq_self {d : Nat} {l : List Nat}
    (h : ∀ x ∈ l, x ≠ d) : l.dropWhile (fun c => c == d) = l := by
  cases l with
  | nil => rfl
  | cons c rest =>
    rw [List.dropWhile_cons_of_neg]
    simp [h c (by simp)]

/-- Trimming a single trailing delimiter from a delimiter-free string. -/
theorem trimRight_snoc {d : Nat} {a : List Nat} (ha : d ∉ a) :
    trimRight d (a ++ [d]) = a := by
  have h1 : (a ++ [d]).reverse = d :: a.reverse := by simp
  rw [trimRight, h1, dropWhile_cons_self,
    dropWhile_beq_eq_self (fun x hx hxd => ha (by
      rw [← hxd]; exact List.mem_reverse.mp hx)),
    List.reverse_reverse]

/-- The function `splitN2` on a separator-free string returns it whole. -/
theorem splitN2_no_sep {sep : Nat} {s : List Nat} (h : sep ∉ s) :
    splitN2 sep s = (s, none) := by
  induction s with
  | nil => rfl
  | cons c rest ih =>
    have hc : c ≠ sep := fun hcd => h (by simp [hcd])
    rw [splitN2, if_neg hc, ih (fun hm => h (by simp [hm]))]

/-- The function `splitN2` splits at the first separator. -/
theorem splitN2_found {sep : Nat} {a : List Nat} (ha : sep ∉ a) (t : List Nat) :
    splitN2 sep (a ++ sep :: t) = (a, some t) := by
  induction a with
  | nil => simp [splitN2]
  | cons c rest ih =>
    have hc : c ≠ sep := fun hcd => ha (by simp [hcd])
    rw [List.cons_append, splitN2, if_neg hc,
      ih (fun hm => ha (by simp [hm]))]

/-- Claim C2: Decode is a left inverse of encode: for all newline-free
reduceKey, sortKey and value byte strings (tabs, commas and percent signs
allowed), reading back an encoded key-value line returns the original
triple, consuming the whole line. -/
theorem readLineKeyValue_encodeKeyValueLine
    (reduceKey sortKey value : List Nat)
    (hrk256 : ∀ b ∈ reduceKey, b < 256) (hsk256 : ∀ b ∈ sortKey, b < 256)
    (hrk10 : 10 ∉ reduceKey) (hsk10 : 10 ∉ sortKey) (hv10 : 10 ∉ value) :
    readLineKeyValue (encodeKeyValueLine reduceKey sortKey value) =
      some (⟨reduceKey, sortKey, value⟩, []) := by
  have hE9 : (9 : Nat) ∉ queryEscape reduceKey :=
    fun hm => (queryEscape_no_special hm).1 rfl
  have hE44 : (44 : Nat) ∉ queryEscape reduceKey :=
    fun hm => (queryEscape_no_special hm).2.2 rfl
  have h4 : queryUnescape (queryEscape reduceKey) = some reduceKey :=
    queryUnescape_queryEscape hrk256
  have h5 : readString 10 (value ++ [10]) = some (value ++ [10], []) := by
    simpa using readString_exact hv10 ([] : List Nat)
  have h6 : trimRight 10 (value ++ [10]) = value := trimRight_snoc hv10
  by_cases hsk : sortKey = []
  · subst hsk
    have hline : encodeKeyValueLine reduceKey [] value =
        queryEscape reduceKey ++ 9 :: (value ++ [10]) := by
      simp [encodeKeyValueLine]
    have h1 : readString 9 (queryEscape reduceKey ++ 9 :: (value ++ [10])) =
        some (queryEscape reduceKey ++ [9], value ++ [10]) :=
      readString_exact hE9 _
    have h2 : trimRight 9 (queryEscape reduceKey ++ [9]) =
        queryEscape reduceKey := trimRight_snoc hE9
    have h3 : splitN2 44 (queryEscape reduceKey) =
        (queryEscape reduceKey, none) := splitN2_no_sep hE44
    rw [hline]
    simp only [readLineKeyValue, h1, h2, h3, h4, h5, h6]
  · have hF9 : (9 : Nat) ∉ queryEscape sortKey :=
      fun hm => (queryEscape_no_special hm).1 rfl
    have h4' : queryUnescape (queryEscape sortKey) = some sortKey :=
      queryUnescape_queryEscape hsk256
    have h9a : (9 : Nat) ∉ queryEscape reduceKey ++ 44 :: queryEscape sortKey := by
      intro hm
      rcases List.mem_append.mp hm with hm | hm
      · exact hE9 hm
      · rcases List.mem_cons.mp hm with hm | hm
        · omega
        · exact hF9 hm
    have hline : encodeKeyValueLine reduceKey sortKey value =
        (queryEscape reduceKey ++ 44 :: queryEscape sortKey) ++
          9 :: (value ++ [10]) := by
      simp [encodeKeyValueLine, hsk]
    have h1 : readString 9
        ((queryEscape reduceKey ++ 44 :: queryEscape sortKey) ++
          9 :: (value ++ [10])) =
        some ((queryEscape reduceKey ++ 44 :: queryEscape sortKey) ++ [9],
          value ++ [10]) := readString_exact h9a _
    have h2 : trimRight 9
        ((queryEscape reduceKey ++ 44 :: queryEscape sortKey) ++ [9]) =
        queryEscape reduceKey ++ 44 :: queryEscape sortKey :=
      trimRight_snoc h9a
    have h3 : splitN2 44 (queryEscape reduceKey ++ 44 :: queryEscape sortKey) =
        (queryEscape reduceKey, some (queryEscape sortKey)) :=
      splitN2_found hE44 _
    rw [hline]
    simp only [readLineKeyValue, h1, h2, h3, h4, h4', h5, h6]

/-- Witness for C2 with a percent sign in the reduce key, a comma in the
sort key, and a tab in the value. -/
theorem readLineKeyValue_encodeKeyValueLine_witness :
    (∀ b ∈ [97, 37, 98], b < 256) ∧ (∀ b ∈ [120, 44, 121], b < 256) ∧
      (10 : Nat) ∉ [97, 37, 98] ∧ (10 : Nat) ∉ [120, 44, 121] ∧
      (10 : Nat) ∉ [118, 9, 119] ∧
      readLineKeyValue
          (encodeKeyValueLine [97, 37, 98] [120, 44, 121] [118, 9, 119]) =
        some (⟨[97, 37, 98], [120, 44, 121], [118, 9, 119]⟩, []) :=
  ⟨by decide, by decide, by decide, by decide, by decide,
    readLineKeyValue_encodeKeyValueLine [97, 37, 98] [120, 44, 121]
      [118, 9, 119] (by decide) (by decide) (by decide) (by decide) (by decide)⟩

/-! ## A final line without its newline is silently discarded (C10) -/

/-- The function `readString` fails exactly when the delimiter does not occur. -/
theorem readString_none_iff {d : Nat} {s : List Nat} :
    readString d s = none ↔ d ∉ s := by
  induction s with
  | nil => simp [readString]
  | cons c rest ih =>
    rw [readString]
    by_cases hc : c = d
    · simp [hc]
    · rw [if_neg hc]
      cases hr : readString d rest with
      | none =>
        simp only [List.mem_cons]
        constructor
        · intro _ hm
          rcases hm with hm | hm
          · exact hc hm.symm
          · exact (ih.mp hr) hm
        · intro _; trivial
      | some p =>
        obtain ⟨k, r⟩ := p
        simp only [List.mem_cons]
        constructor
        · intro hcontra; simp at hcontra
        · intro hm
          exfalso
          have : d ∉ rest := fun hd => hm (Or.inr hd)
          rw [ih.mpr this] at hr
          simp at hr

/-- Inversion of a successful `readString`: the stream splits as a
delimiter-free prefix, the delimiter, and the remainder. -/
theorem readString_inv {d : Nat} :
    ∀ {s k r : List Nat}, readString d s = some (k, r) →
      ∃ a, d ∉ a ∧ k = a ++ [d] ∧ s = a ++ d :: r := by
  intro s
  induction s with
  | nil => intro k r h; simp [readString] at h
  | cons c rest ih =>
    intro k r h
    rw [readString] at h
    by_cases hc : c = d
    · rw [if_pos hc] at h
      simp at h
      exact ⟨[], by simp, by simp [h.1.symm, hc], by simp [hc, h.2.symm]⟩
    · rw [if_neg hc] at h
      cases hr : readString d rest with
      | none => rw [hr] at h; simp at h
      | some p =>
        obtain ⟨k', r'⟩ := p
        rw [hr] at h
        simp at h
        obtain ⟨a, ha, hk, hs⟩ := ih hr
        refine ⟨c :: a, ?_, ?_, ?_⟩
        · simp [ha]
          exact fun hcd => hc hcd.symm
        · simp [← h.1, hk]
        · simp [hs, h.2.symm]

/-- A successful `readString` only looks at the consumed prefix: appending
more input does not change what it reads. -/
theorem readString_stable {d : Nat} {s k r : List Nat}
    (h : readString d s = some (k, r)) (t : List Nat) :
    readString d (s ++ t) = some (k, r ++ t) := by
  obtain ⟨a, ha, hk, hs⟩ := readString_inv h
  rw [hs, hk, List.append_assoc, List.cons_append, readString_exact ha]

/-- The function `readString` skips over a delimiter-free prefix. -/
theorem readString_prepend {d : Nat} {z : List Nat} (hz : d ∉ z) (p : List Nat) :
    readString d (z ++ p) = match readString d p with
      | none => none
      | some (k, r) => some (z ++ k, r) := by
  induction z with
  | nil =>
    simp only [List.nil_append]
    cases hr : readString d p with
    | none => simp
    | some pr => obtain ⟨k, r⟩ := pr; simp
  | cons c rest ih =>
    have hc : c ≠ d := fun hcd => hz (by simp [hcd])
    rw [List.cons_append, readString, if_neg hc,
      ih (fun hm => hz (by simp [hm]))]
    cases hr : readString d p with
    | none => simp
    | some pr => obtain ⟨k, r⟩ := pr; simp

/-- The function `readLineValue` fails exactly on a newline-free stream. -/
theorem readLineValue_none_iff {z : List Nat} :
    readLineValue z = none ↔ 10 ∉ z := by
  cases hr : readString 10 z with
  | none =>
    simp only [readLineValue, hr]
    simpa using readString_none_iff.mp hr
  | some p =>
    obtain ⟨s, rest⟩ := p
    simp only [readLineValue, hr]
    constructor
    · intro hcontra; simp at hcontra
    · intro hm
      exfalso
      rw [readString_none_iff.mpr hm] at hr
      simp at hr

/-- A newline-free stream (the unterminated final line) makes
`readLineKeyValue` fail, whatever else it contains: either the tab or the
value's newline is missing, or percent-decoding fails first. -/
theorem readLineKeyValue_none_of_no_newline {z : List Nat} (hz : 10 ∉ z) :
    readLineKeyValue z = none := by
  cases hr : readString 9 z with
  | none => simp [readLineKeyValue, hr]
  | some p =>
    obtain ⟨k0, br1⟩ := p
    obtain ⟨a, ha, hk, hs⟩ := readString_inv hr
    have h10 : 10 ∉ br1 := fun hm => hz (by rw [hs]; simp [hm])
    have hv : readString 10 br1 = none := readString_none_iff.mpr h10
    simp only [readLineKeyValue, hr, hv]
    cases hq1 : queryUnescape (splitN2 44 (trimRight 9 k0)).1 with
    | none => simp
    | some rk =>
      cases hq2 : (match (splitN2 44 (trimRight 9 k0)).2 with
        | some k1 => queryUnescape k1
        | none => some []) with
      | none => simp
      | some sk => simp

/-- A successful `readLineValue` is unaffected by appending more input. -/
theorem readLineValue_stable {z : List Nat} {kv : KeyValue} {r : List Nat}
    (h : readLineValue z = some (kv, r)) (t : List Nat) :
    readLineValue (z ++ t) = some (kv, r ++ t) := by
  cases hr : readString 10 z with
  | none => simp [readLineValue, hr] at h
  | some p =>
    obtain ⟨s, rest⟩ := p
    simp only [readLineValue, hr] at h
    simp only [readLineValue, readString_stable hr t]
    simp only [Option.some.injEq, Prod.mk.injEq] at h ⊢
    exact ⟨h.1, by rw [← h.2]⟩

/-- A successful `readLineValue` consumed a nonempty prefix. -/
theorem readLineValue_consumed {z : List Nat} {kv : KeyValue} {r : List Nat}
    (h : readLineValue z = some (kv, r)) : ∃ u, u ≠ [] ∧ z = u ++ r := by
  cases hr : readString 10 z with
  | none => simp [readLineValue, hr] at h
  | some p =>
    obtain ⟨s, rest⟩ := p
    simp only [readLineValue, hr, Option.some.injEq, Prod.mk.injEq] at h
    obtain ⟨a, _, _, hs⟩ := readString_inv hr
    exact ⟨a ++ [10], by simp, by rw [hs, ← h.2]; simp⟩

/-- A successful `readLineKeyValue` is unaffected by appending more
input. -/
theorem readLineKeyValue_stable {z : List Nat} {kv : KeyValue} {r : List Nat}
    (h : readLineKeyValue z = some (kv, r)) (t : List Nat) :
    readLineKeyValue (z ++ t) = some (kv, r ++ t) := by
  cases hr1 : readString 9 z with
  | none => simp [readLineKeyValue, hr1] at h
  | some p1 =>
    obtain ⟨k0, br1⟩ := p1
    simp only [readLineKeyValue, hr1] at h
    simp only [readLineKeyValue, readString_stable hr1 t]
    cases hq1 : queryUnescape (splitN2 44 (trimRight 9 k0)).1 with
    | none => rw [hq1] at h; simp at h
    | some rk =>
      rw [hq1] at h
      cases hq2 : (match (splitN2 44 (trimRight 9 k0)).2 with
        | some k1 => queryUnescape k1
        | none => some []) with
      | none => rw [hq2] at h; simp at h
      | some sk =>
        rw [hq2] at h
        cases hr2 : readString 10 br1 with
        | none => rw [hr2] at h; simp at h
        | some p2 =>
          obtain ⟨v0, br2⟩ := p2
          rw [hr2] at h
          simp only [Option.some.injEq, Prod.mk.injEq] at h
          rw [readString_stable hr2 t]
          simp [h.1.symm, ← h.2]

/-- A successful `readLineKeyValue` consumed a nonempty prefix. -/
theorem readLineKeyValue_consumed {z : List Nat} {kv : KeyValue}
    {r : List Nat} (h : readLineKeyValue z = some (kv, r)) :
    ∃ u, u ≠ [] ∧ z = u ++ r := by
  cases hr1 : readString 9 z with
  | none => simp [readLineKeyValue, hr1] at h
  | some p1 =>
    obtain ⟨k0, br1⟩ := p1
    simp only [readLineKeyValue, hr1] at h
    cases hq1 : queryUnescape (splitN2 44 (trimRight 9 k0)).1 with
    | none => rw [hq1] at h; simp at h
    | some rk =>
      rw [hq1] at h
      cases hq2 : (match (splitN2 44 (trimRight 9 k0)).2 with
        | some k1 => queryUnescape k1
        | none => some []) with
      | none => rw [hq2] at h; simp at h
      | some sk =>
        rw [hq2] at h
        cases hr2 : readString 10 br1 with
        | none => rw [hr2] at h; simp at h
        | some p2 =>
          obtain ⟨v0, br2⟩ := p2
          rw [hr2] at h
          simp only [Option.some.injEq, Prod.mk.injEq] at h
          obtain ⟨a1, _, _, hs1⟩ := readString_inv hr1
          obtain ⟨a2, _, _, hs2⟩ := readString_inv hr2
          refine ⟨a1 ++ 9 :: a2 ++ [10], by simp, ?_⟩
          rw [hs1, hs2, ← h.2]
          simp

/-- A newline-terminated stream that `readLineKeyValue` rejects is still
rejected after appending a newline-free tail: the failure (missing tab or
bad percent escape) happens before the appended bytes can matter. -/
theorem readLineKeyValue_none_propagate {z p a0 : List Nat}
    (hz : z = a0 ++ [10]) (hnone : readLineKeyValue z = none)
    (hp : 10 ∉ p) : readLineKeyValue (z ++ p) = none := by
  cases hr1 : readString 9 z with
  | none =>
    have h9z : 9 ∉ z := readString_none_iff.mp hr1
    rw [readLineKeyValue, readString_prepend h9z p]
    cases hrp : readString 9 p with
    | none => simp
    | some pr =>
      obtain ⟨k1, r1⟩ := pr
      obtain ⟨a, ha, hk, hs⟩ := readString_inv hrp
      have h10 : 10 ∉ r1 := fun hm => hp (by rw [hs]; simp [hm])
      simp only []
      cases hq1 : queryUnescape (splitN2 44 (trimRight 9 (z ++ k1))).1 with
      | none => simp
      | some rk =>
        cases hq2 : (match (splitN2 44 (trimRight 9 (z ++ k1))).2 with
          | some k1 => queryUnescape k1
          | none => some []) with
        | none => simp
        | some sk => simp [readString_none_iff.mpr h10]
  | some p1 =>
    obtain ⟨k0, br1⟩ := p1
    obtain ⟨a1, ha1, hk1, hs1⟩ := readString_inv hr1
    -- the stream ends in a newline, so the remainder after the tab is a
    -- nonempty suffix ending in that newline
    have hbr1 : br1 ≠ [] := by
      intro hb
      rw [hb] at hs1
      have h1 : z.getLast? = some 10 := by rw [hz]; simp
      have h2 : z.getLast? = some 9 := by
        rw [hs1]
        have : a1 ++ [9] = a1 ++ 9 :: ([] : List Nat) := by simp
        rw [← this]
        simp
      rw [h1] at h2
      simp at h2
    have hlast : br1.getLast? = some 10 := by
      have h1 : z.getLast? = some 10 := by rw [hz]; simp
      rw [hs1] at h1
      rw [show a1 ++ 9 :: br1 = (a1 ++ [9]) ++ br1 by simp] at h1
      rw [List.getLast?_append_of_ne_nil _ hbr1] at h1
      exact h1
    have h10br1 : 10 ∈ br1 := by
      have := List.dropLast_append_getLast? 10 hlast
      rw [← this]
      simp
    simp only [readLineKeyValue, hr1] at hnone
    simp only [readLineKeyValue, readString_stable hr1 p]
    cases hq1 : queryUnescape (splitN2 44 (trimRight 9 k0)).1 with
    | none => simp
    | some rk =>
      rw [hq1] at hnone
      cases hq2 : (match (splitN2 44 (trimRight 9 k0)).2 with
        | some k1 => queryUnescape k1
        | none => some []) with
      | none => simp
      | some sk =>
        rw [hq2] at hnone
        exfalso
        cases hr2 : readString 10 br1 with
        | none => exact (readString_none_iff.mp hr2) h10br1
        | some p2 =>
          obtain ⟨v0, br2⟩ := p2
          rw [hr2] at hnone
          simp at hnone

/-- The function `parseRecords` on a stream rejected by the reader. -/
theorem parseRecords_eq_none {br : List Nat}
    (h : readLineKeyValue br = none) : parseRecords br = [] := by
  rw [parseRecords]
  split <;> simp_all

/-- The function `parseRecords` unfolding on a successful read. -/
theorem parseRecords_eq_cons {br : List Nat} {kv : KeyValue} {rest : List Nat}
    (h : readLineKeyValue br = some (kv, rest)) :
    parseRecords br = kv :: parseRecords rest := by
  rw [parseRecords]
  split <;> simp_all

/-- The function `mapper` on a stream rejected by the reader. -/
theorem mapper_eq_none {br : List Nat}
    (h : readLineValue br = none) : mapper br = [] := by
  rw [mapper]
  split <;> simp_all

/-- The function `mapper` unfolding on a successful read. -/
theorem mapper_eq_cons {br : List Nat} {kv : KeyValue} {rest : List Nat}
    (h : readLineValue br = some (kv, rest)) :
    mapper br = kv.Value :: mapper rest := by
  rw [mapper]
  split <;> simp_all

/-- Appending a newline-free tail to a newline-terminated stream does not
change which records the reduce driver reads: the tail (the unterminated
final line) is silently discarded. -/
theorem parseRecords_append_newline_free :
    ∀ (n : Nat) (c p : List Nat), c.length ≤ n →
      (c = [] ∨ ∃ a, c = a ++ [10]) → 10 ∉ p →
      parseRecords (c ++ p) = parseRecords c := by
  intro n
  induction n with
  | zero =>
    intro c p hlen hc hp
    have hc0 : c = [] := List.eq_nil_of_length_eq_zero (Nat.le_zero.mp hlen)
    subst hc0
    simp only [List.nil_append]
    rw [parseRecords_eq_none (readLineKeyValue_none_of_no_newline hp),
      parseRecords_nil]
  | succ n ih =>
    intro c p hlen hc hp
    rcases hc with hc | ⟨a0, hc⟩
    · subst hc
      simp only [List.nil_append]
      rw [parseRecords_eq_none (readLineKeyValue_none_of_no_newline hp),
        parseRecords_nil]
    · cases hkv : readLineKeyValue c with
      | none =>
        rw [parseRecords_eq_none (readLineKeyValue_none_propagate hc hkv hp),
          parseRecords_eq_none hkv]
      | some pr =>
        obtain ⟨kv, rest⟩ := pr
        obtain ⟨u, hu, hcur⟩ := readLineKeyValue_consumed hkv
        have hrest : rest = [] ∨ ∃ b, rest = b ++ [10] := by
          by_cases hr0 : rest = []
          · exact Or.inl hr0
          · right
            have h1 : c.getLast? = some 10 := by rw [hc]; simp
            rw [hcur, List.getLast?_append_of_ne_nil _ hr0] at h1
            exact ⟨rest.dropLast, (List.dropLast_append_getLast? 10 h1).symm⟩
        have hlen' : rest.length ≤ n := by
          have hcl : c.length = u.length + rest.length := by rw [hcur]; simp
          have hul : 1 ≤ u.length := by
            cases u with
            | nil => exact absurd rfl hu
            | cons x xs => simp
          omega
        rw [parseRecords_eq_cons (readLineKeyValue_stable hkv p),
          ih rest p hlen' hrest hp, parseRecords_eq_cons hkv]

/-- Appending a newline-free tail to a newline-terminated stream does not
change the values the map driver hands to `Map`. -/
theorem mapper_append_newline_free :
    ∀ (n : Nat) (c p : List Nat), c.length ≤ n →
      (c = [] ∨ ∃ a, c = a ++ [10]) → 10 ∉ p →
      mapper (c ++ p) = mapper c := by
  intro n
  induction n with
  | zero =>
    intro c p hlen hc hp
    have hc0 : c = [] := List.eq_nil_of_length_eq_zero (Nat.le_zero.mp hlen)
    subst hc0
    simp only [List.nil_append]
    rw [mapper_eq_none (readLineValue_none_iff.mpr hp),
      mapper_eq_none (readLineValue_none_iff.mpr (by simp))]
  | succ n ih =>
    intro c p hlen hc hp
    rcases hc with hc | ⟨a0, hc⟩
    · subst hc
      simp only [List.nil_append]
      rw [mapper_eq_none (readLineValue_none_iff.mpr hp),
        mapper_eq_none (readLineValue_none_iff.mpr (by simp))]
    · cases hkv : readLineValue c with
      | none =>
        -- impossible: c ends in a newline, so the first line read succeeds
        exfalso
        have : (10 : Nat) ∈ c := by rw [hc]; simp
        exact (readLineValue_none_iff.mp hkv) this
      | some pr =>
        obtain ⟨kv, rest⟩ := pr
        obtain ⟨u, hu, hcur⟩ := readLineValue_consumed hkv
        have hrest : rest = [] ∨ ∃ b, rest = b ++ [10] := by
          by_cases hr0 : rest = []
          · exact Or.inl hr0
          · right
            have h1 : c.getLast? = some 10 := by rw [hc]; simp
            rw [hcur, List.getLast?_append_of_ne_nil _ hr0] at h1
            exact ⟨rest.dropLast, (List.dropLast_append_getLast? 10 h1).symm⟩
        have hlen' : rest.length ≤ n := by
          have hcl : c.length = u.length + rest.length := by rw [hcur]; simp
          have hul : 1 ≤ u.length := by
            cases u with
            | nil => exact absurd rfl hu
            | cons x xs => simp
          omega
        rw [mapper_eq_cons (readLineValue_stable hkv p),
          ih rest p hlen' hrest hp, mapper_eq_cons hkv]

/-- Claim C10: A stream whose final line is not newline-terminated: both
line readers reject the unterminated final line, and the drivers treat
that as end of stream — the map driver passes to `Map` exactly the values
of the complete lines, and the reduce driver reads exactly the records of
the complete lines; the final line's data is silently discarded. -/
theorem unterminated_final_line_discarded (complete tail : List Nat)
    (hc : complete = [] ∨ ∃ a, complete = a ++ [10])
    (htail10 : 10 ∉ tail) (htne : tail ≠ []) :
    readLineValue tail = none ∧ readLineKeyValue tail = none ∧
      mapper (complete ++ tail) = mapper complete ∧
      parseRecords (complete ++ tail) = parseRecords complete :=
  ⟨readLineValue_none_iff.mpr htail10,
    readLineKeyValue_none_of_no_newline htail10,
    mapper_append_newline_free complete.length complete tail le_rfl hc htail10,
    parseRecords_append_newline_free complete.length complete tail le_rfl hc
      htail10⟩

/-- Witness for C10: one complete line `"a\t b-less value\n"` followed by an
unterminated fragment. -/
theorem unterminated_final_line_discarded_witness :
    (([97, 9, 118, 10] : List Nat) = [] ∨
        ∃ a, ([97, 9, 118, 10] : List Nat) = a ++ [10]) ∧
      (10 : Nat) ∉ [98, 9, 119] ∧ ([98, 9, 119] : List Nat) ≠ [] ∧
      (readLineValue [98, 9, 119] = none ∧
        readLineKeyValue [98, 9, 119] = none ∧
        mapper ([97, 9, 118, 10] ++ [98, 9, 119]) = mapper [97, 9, 118, 10] ∧
        parseRecords ([97, 9, 118, 10] ++ [98, 9, 119]) =
          parseRecords [97, 9, 118, 10]) :=
  ⟨Or.inr ⟨[97, 9, 118], rfl⟩, by decide, by decide,
    unterminated_final_line_discarded [97, 9, 118, 10] [98, 9, 119]
      (Or.inr ⟨[97, 9, 118], rfl⟩) (by decide) (by decide)⟩
